import Mathlib

/-!
Verification of the parallel keyword-occurrence scanner
(`search_multiprocessing.py` / `search_threading.py`).

The Python code is shallowly embedded:

* a file is a path together with an optional content (`none` models a
  read/decode failure of `_read_text_safely`);
* Python strings are `List Char` (for contents, keywords, suffixes) or
  `String` (for paths, where only equality matters);
* Python dicts `keyword -> list of paths` are association lists in
  insertion order (`dictAppend` models `defaultdict(list)[k].append`,
  `dictExtendKey` models `aggregated[kw].extend(paths)`);
* `_chunks` uses Python `range(0, len(seq), size)`, which raises
  `ValueError` when `size == 0`; fallible code returns `Option`, with
  `none` modelling the raised exception.
-/

namespace KwSearch

/-- A file as seen by a worker: its path and the result of reading it.
`content = none` models a read/decode failure (`_read_text_safely`
returning `None` after printing a warning). -/
structure SrcFile where
  path : String
  content : Option (List Char)
deriving DecidableEq, Repr

/-- Keywords (and file contents, suffixes) are Python strings, modelled
as lists of characters. -/
abbrev KW := List Char

/-- A Python dict `keyword -> list of file paths`, modelled as an
association list in key-insertion order. -/
abbrev Dict := List (KW × List String)

/-- Python `str.lower()` applied characterwise. -/
def toLowerTxt (s : List Char) : List Char := s.map Char.toLower

/-- `startsWith needle hay` : `hay` begins with `needle`. -/
def startsWith : List Char → List Char → Bool
  | [], _ => true
  | _ :: _, [] => false
  | a :: as, b :: bs => a == b && startsWith as bs

/-- Python's substring test `needle in hay`: some tail of `hay` begins
with `needle`. -/
def hasSub (needle : List Char) : List Char → Bool
  | [] => needle.isEmpty
  | b :: rest => startsWith needle (b :: rest) || hasSub needle rest

/-- The per-keyword match test of `_worker_process` / `_scan_file`:
`kw.lower() in content.lower()` when `case_insensitive`, otherwise
`kw in content` (source lines 55-63 of `search_multiprocessing.py`,
lines 45-55 of `search_threading.py`). -/
def matchKw (ci : Bool) (kw content : List Char) : Bool :=
  if ci then hasSub (toLowerTxt kw) (toLowerTxt content) else hasSub kw content

/-- `local[kw].append(pth)` on a `defaultdict(list)`: append to the
existing entry, or create the key at the end in insertion order. -/
def dictAppend : Dict → KW → String → Dict
  | [], k, v => [(k, [v])]
  | (k', vs) :: rest, k, v =>
    if k' = k then (k', vs ++ [v]) :: rest
    else (k', vs) :: dictAppend rest k v

/-- `aggregated[kw].extend(paths)` on a `defaultdict(list)`. -/
def dictExtendKey : Dict → KW → List String → Dict
  | [], k, vs => [(k, vs)]
  | (k', vs') :: rest, k, vs =>
    if k' = k then (k', vs' ++ vs) :: rest
    else (k', vs') :: dictExtendKey rest k vs

/-- Dict lookup (`d[k]` / `k in d`): `none` when the key is absent. -/
def dictFind : Dict → KW → Option (List String)
  | [], _ => none
  | (k, vs) :: rest, key => if k = key then some vs else dictFind rest key

/-- Lookup with the empty list as default. -/
def findD (d : Dict) (key : KW) : List String := (dictFind d key).getD []

/-- The inner keyword loop of `_worker_process` for one file that was
read successfully: for each keyword in sequence, append the file path
to that keyword's entry whenever the keyword matches the content. -/
def scanKws (d : Dict) (pth : String) (c : List Char) (ci : Bool) : List KW → Dict
  | [] => d
  | kw :: rest =>
    scanKws (if matchKw ci kw c then dictAppend d kw pth else d) pth c ci rest

/-- One iteration of the file loop of `_worker_process`: a file whose
read failed (`content is None`) is skipped and contributes nothing. -/
def scanFileInto (d : Dict) (f : SrcFile) (kws : List KW) (ci : Bool) : Dict :=
  match f.content with
  | none => d
  | some c => scanKws d f.path c ci kws

/-- `_worker_process`: scan the slice of files assigned to this worker
into a fresh local dict (the dict that is put on the result queue). -/
def workerProc (files : List SrcFile) (kws : List KW) (ci : Bool) : Dict :=
  files.foldl (fun d f => scanFileInto d f kws ci) []

/-- Python `range(0, stop, step)`: raises `ValueError` (modelled as
`none`) when `step = 0`, otherwise yields `0, step, 2*step, ...`
strictly below `stop` (count `ceil(stop/step)`). -/
def pyRange (stop step : Nat) : Option (List Nat) :=
  if step = 0 then none
  else some (List.range' 0 ((stop + step - 1) / step) step)

/-- `_chunks(seq, n)`: `n <= 0` returns `[seq]`; otherwise slices
`seq[i : i + size]` for `i in range(0, len(seq), size)` with
`size = (len(seq) + n - 1) // n`.  `none` models the `ValueError`
raised by `range` when `size = 0` (which happens exactly when `seq`
is empty and `n >= 1`). -/
def chunksPy (seq : List SrcFile) (n : Nat) : Option (List (List SrcFile)) :=
  if n = 0 then some [seq]
  else
    let size := (seq.length + n - 1) / n
    (pyRange seq.length size).map (fun idxs => idxs.map (fun i => (seq.drop i).take size))

/-- `aggregated[kw].extend(paths)` over all items of one partial
result, in the partial's key order. -/
def mergeInto (acc : Dict) (p : Dict) : Dict :=
  p.foldl (fun a kv => dictExtendKey a kv.1 kv.2) acc

/-- The aggregation loop of `multiprocessing_search`: merge the partial
dicts (one per worker, in the order they are received) into a fresh
`defaultdict(list)`. -/
def aggregate (ps : List Dict) : Dict := ps.foldl mergeInto []

/-- `multiprocessing_search` after file collection, with the worker
count `n` as a parameter: short-circuit an empty file list to `{}`,
otherwise partition into chunks, run one worker per non-empty chunk
(`if not batch: continue`), and aggregate the partial results.  `none`
models an uncaught exception from `_chunks`. -/
def searchPipeline (files : List SrcFile) (kws : List KW) (n : Nat) (ci : Bool) :
    Option Dict :=
  if files.isEmpty then some []
  else
    (chunksPy files n).map (fun cs =>
      aggregate (((cs.filter (fun c => !c.isEmpty)).map (fun c => workerProc c kws ci))))

/-- Python `x or d` for the optional CPU count: `d` when `x` is `None`
or `0` (falsy), else `x`. -/
def pyOrNat (x : Option Nat) (d : Nat) : Nat :=
  match x with
  | none => d
  | some c => if c = 0 then d else c

/-- `num_procs = max(1, min(len(files), os.cpu_count() or 2))`
(`search_multiprocessing.py` lines 113-114). -/
def numProcsMP (fileCount : Nat) (cpu : Option Nat) : Nat :=
  max 1 (min fileCount (pyOrNat cpu 2))

/-- `num_threads = max(1, min(len(files), os.cpu_count() or 4))`
(`search_threading.py` lines 102-103). -/
def numThreadsTH (fileCount : Nat) (cpu : Option Nat) : Nat :=
  max 1 (min fileCount (pyOrNat cpu 4))

/-- A directory entry as seen by the collection loop: its path and its
`Path.suffix`. -/
structure FsEntry where
  path : String
  suffix : List Char
deriving DecidableEq, Repr

/-- The file-collection filter of both search functions: with a falsy
(`None`/empty) `allow_extensions` keep every file, otherwise keep a
file iff `p.suffix.lower() in allow_extensions` (only the file's
suffix is lowercased, not the set entries). -/
def filterFiles (allow : List (List Char)) (entries : List FsEntry) : List FsEntry :=
  entries.filter (fun e => if allow.isEmpty then true else allow.contains (toLowerTxt e.suffix))

/-- `multiprocessing_search` with the platform CPU count made explicit:
the worker count fed to `_chunks` is `numProcsMP`. -/
def multiprocessingSearch (files : List SrcFile) (kws : List KW) (cpu : Option Nat)
    (ci : Bool) : Option Dict :=
  searchPipeline files kws (numProcsMP files.length cpu) ci

/-- Reference chunking function used in proofs: cut off `k + 1`
elements at a time.  `chunksPy` with chunk size `k + 1` is proved to
coincide with it. -/
def splitSucc (k : Nat) : List SrcFile → List (List SrcFile)
  | [] => []
  | a :: rest => ((a :: rest).take (k + 1)) :: splitSucc k (rest.drop k)
termination_by l => l.length
decreasing_by simp [List.length_drop]; omega

/-- Number of occurrences of `key` in the keyword sequence. -/
def countKw : List KW → KW → Nat
  | [], _ => 0
  | k :: rest, key => (if k = key then 1 else 0) + countKw rest key

/-- Contribution of a single file to the final list for keyword `key`:
nothing for an unreadable file, otherwise the file's path once per
occurrence of `key` in the keyword sequence when `key` matches the
content. -/
def contribList (kws : List KW) (ci : Bool) (key : KW) (f : SrcFile) : List String :=
  match f.content with
  | none => []
  | some c => List.replicate (if matchKw ci key c then countKw kws key else 0) f.path

/-- Number of occurrences of a path in a result list. -/
def countPath : List String → String → Nat
  | [], _ => 0
  | q :: rest, p => (if q = p then 1 else 0) + countPath rest p

/-- All keys of a dict are distinct (true of every dict the program
builds). -/
def keysNodup (d : Dict) : Prop := (d.map Prod.fst).Nodup

/-- Every value list of a dict is non-empty (keywords with zero matches
are never present). -/
def valsNE (d : Dict) : Prop := ∀ kv ∈ d, kv.2 ≠ []

theorem findD_nil (key : KW) : findD [] key = [] := rfl

theorem dictFind_mem {d : Dict} {key : KW} {vs : List String}
    (h : dictFind d key = some vs) : (key, vs) ∈ d := by
  induction d with
  | nil => simp [dictFind] at h
  | cons kv rest ih =>
    obtain ⟨k, vs'⟩ := kv
    by_cases hk : k = key
    · subst hk
      simp [dictFind] at h
      subst h
      exact List.mem_cons_self _ _
    · simp [dictFind, hk] at h
      exact List.mem_cons_of_mem _ (ih h)

theorem dictFind_eq_none_of_not_mem {d : Dict} {key : KW}
    (h : key ∉ d.map Prod.fst) : dictFind d key = none := by
  induction d with
  | nil => rfl
  | cons kv rest ih =>
    obtain ⟨k, vs⟩ := kv
    simp only [List.map_cons, List.mem_cons] at h
    push_neg at h
    simp only [dictFind, if_neg (Ne.symm h.1)]
    exact ih h.2

theorem mem_findD_iff {d : Dict} {key : KW} {p : String} :
    p ∈ findD d key ↔ ∃ vs, dictFind d key = some vs ∧ p ∈ vs := by
  cases h : dictFind d key <;> simp [findD, h]

theorem findD_eq_of_dictFind {d : Dict} {key : KW} {vs : List String}
    (h : dictFind d key = some vs) : findD d key = vs := by
  simp [findD, h]

theorem dictFind_eq_none_of_findD_nil {d : Dict} {key : KW}
    (hne : valsNE d) (h : findD d key = []) : dictFind d key = none := by
  cases hfind : dictFind d key with
  | none => rfl
  | some vs =>
    have hvs : vs = [] := by simpa [findD, hfind] using h
    subst hvs
    exact absurd rfl (hne _ (dictFind_mem hfind))

theorem findD_dictAppend (d : Dict) (k : KW) (v : String) (key : KW) :
    findD (dictAppend d k v) key =
      if key = k then findD d k ++ [v] else findD d key := by
  induction d with
  | nil =>
    rcases eq_or_ne key k with rfl | hne
    · simp [dictAppend, dictFind, findD]
    · simp [dictAppend, dictFind, findD, hne, Ne.symm hne]
  | cons kv rest ih =>
    obtain ⟨k', vs'⟩ := kv
    by_cases hk : k' = k
    · subst hk
      rcases eq_or_ne key k' with rfl | hne
      · simp [dictAppend, dictFind, findD]
      · simp [dictAppend, dictFind, findD, hne, Ne.symm hne]
    · rcases eq_or_ne key k' with rfl | hne
      · have hkk : key ≠ k := fun h => hk (h ▸ rfl)
        simp [dictAppend, dictFind, findD, hk, hkk]
      · simpa [dictAppend, dictFind, findD, hk, Ne.symm hne] using ih

theorem findD_dictExtendKey (d : Dict) (k : KW) (vs : List String) (key : KW) :
    findD (dictExtendKey d k vs) key =
      if key = k then findD d k ++ vs else findD d key := by
  induction d with
  | nil =>
    rcases eq_or_ne key k with rfl | hne
    · simp [dictExtendKey, dictFind, findD]
    · simp [dictExtendKey, dictFind, findD, hne, Ne.symm hne]
  | cons kv rest ih =>
    obtain ⟨k', vs'⟩ := kv
    by_cases hk : k' = k
    · subst hk
      rcases eq_or_ne key k' with rfl | hne
      · simp [dictExtendKey, dictFind, findD]
      · simp [dictExtendKey, dictFind, findD, hne, Ne.symm hne]
    · rcases eq_or_ne key k' with rfl | hne
      · have hkk : key ≠ k := fun h => hk (h ▸ rfl)
        simp [dictExtendKey, dictFind, findD, hk, hkk]
      · simpa [dictExtendKey, dictFind, findD, hk, Ne.symm hne] using ih

theorem findD_scanKws (pth : String) (c : List Char) (ci : Bool) :
    ∀ (kws : List KW) (d : Dict) (key : KW),
      findD (scanKws d pth c ci kws) key =
        findD d key ++
          List.replicate (if matchKw ci key c then countKw kws key else 0) pth := by
  intro kws
  induction kws with
  | nil => intro d key; simp [scanKws, countKw, ite_self]
  | cons kw rest ih =>
    intro d key
    simp only [scanKws]
    rw [ih]
    by_cases hm : matchKw ci kw c
    · simp only [hm, if_true]
      rw [findD_dictAppend]
      rcases eq_or_ne key kw with rfl | hk
      · simp only [if_pos rfl, hm, if_true, countKw, if_pos rfl]
        rw [List.append_assoc]
        congr 1
        rw [Nat.add_comm 1 (countKw rest key), List.replicate_succ, List.singleton_append]
      · simp only [if_neg hk, countKw, if_neg (Ne.symm hk)]
        simp
    · simp only [hm, if_false]
      rcases eq_or_ne key kw with rfl | hk
      · simp only [countKw, if_pos rfl]
        have hmkey : matchKw ci key c = false := by
          simpa using hm
        simp [hmkey]
      · simp only [countKw, if_neg (Ne.symm hk)]
        simp

theorem findD_scanFileInto (d : Dict) (f : SrcFile) (kws : List KW) (ci : Bool)
    (key : KW) :
    findD (scanFileInto d f kws ci) key = findD d key ++ contribList kws ci key f := by
  cases hc : f.content with
  | none => simp [scanFileInto, contribList, hc]
  | some c => simp [scanFileInto, contribList, hc, findD_scanKws]

theorem findD_workerAux (kws : List KW) (ci : Bool) (key : KW) :
    ∀ (files : List SrcFile) (d : Dict),
      findD (files.foldl (fun a f => scanFileInto a f kws ci) d) key =
        findD d key ++ (files.map (contribList kws ci key)).flatten := by
  intro files
  induction files with
  | nil => intro d; simp
  | cons f rest ih =>
    intro d
    simp only [List.foldl_cons, List.map_cons, List.flatten]
    rw [ih, findD_scanFileInto, List.append_assoc]

theorem findD_workerProc (files : List SrcFile) (kws : List KW) (ci : Bool) (key : KW) :
    findD (workerProc files kws ci) key = (files.map (contribList kws ci key)).flatten := by
  simpa [workerProc, findD_nil] using findD_workerAux kws ci key files []

theorem mem_keys_dictAppend {d : Dict} {k : KW} {v : String} {key : KW}
    (h : key ∈ (dictAppend d k v).map Prod.fst) :
    key ∈ d.map Prod.fst ∨ key = k := by
  induction d with
  | nil =>
    exact Or.inr (by simpa [dictAppend] using h)
  | cons kv rest ih =>
    obtain ⟨k', vs'⟩ := kv
    by_cases hk : k' = k
    · subst hk
      simp [dictAppend] at h ⊢
      tauto
    · simp only [dictAppend, if_neg hk, List.map_cons, List.mem_cons] at h ⊢
      rcases h with h | h
      · exact Or.inl (Or.inl h)
      · rcases ih h with h' | h'
        · exact Or.inl (Or.inr h')
        · exact Or.inr h'

theorem keysNodup_dictAppend {d : Dict} (h : keysNodup d) (k : KW) (v : String) :
    keysNodup (dictAppend d k v) := by
  induction d with
  | nil => simp [dictAppend, keysNodup]
  | cons kv rest ih =>
    obtain ⟨k', vs'⟩ := kv
    simp only [keysNodup, List.map_cons, List.nodup_cons] at h
    by_cases hk : k' = k
    · subst hk
      simpa [dictAppend, keysNodup, List.nodup_cons] using h
    · have hrest := ih h.2
      simp only [dictAppend, if_neg hk, keysNodup, List.map_cons, List.nodup_cons]
      refine ⟨fun hmem => ?_, hrest⟩
      rcases mem_keys_dictAppend hmem with h' | h'
      · exact h.1 h'
      · exact hk h'

theorem keysNodup_scanKws (pth : String) (c : List Char) (ci : Bool) :
    ∀ (kws : List KW) (d : Dict), keysNodup d → keysNodup (scanKws d pth c ci kws) := by
  intro kws
  induction kws with
  | nil => intro d h; simpa [scanKws] using h
  | cons kw rest ih =>
    intro d h
    simp only [scanKws]
    apply ih
    by_cases hm : matchKw ci kw c
    · simpa [hm] using keysNodup_dictAppend h kw pth
    · simpa [hm] using h

theorem keysNodup_scanFileInto {d : Dict} (h : keysNodup d) (f : SrcFile)
    (kws : List KW) (ci : Bool) : keysNodup (scanFileInto d f kws ci) := by
  cases hc : f.content with
  | none => simpa [scanFileInto, hc] using h
  | some c =>
    simp only [scanFileInto, hc]
    exact keysNodup_scanKws f.path c ci kws d h

theorem keysNodup_workerProc (files : List SrcFile) (kws : List KW) (ci : Bool) :
    keysNodup (workerProc files kws ci) := by
  have aux : ∀ (fs : List SrcFile) (d : Dict), keysNodup d →
      keysNodup (fs.foldl (fun a f => scanFileInto a f kws ci) d) := by
    intro fs
    induction fs with
    | nil => intro d h; simpa using h
    | cons f rest ih =>
      intro d h
      simp only [List.foldl_cons]
      exact ih _ (keysNodup_scanFileInto h f kws ci)
  exact aux files [] (by simp [keysNodup])

theorem valsNE_dictAppend {d : Dict} (h : valsNE d) (k : KW) (v : String) :
    valsNE (dictAppend d k v) := by
  induction d with
  | nil =>
    intro kv hkv
    simp only [dictAppend, List.mem_singleton] at hkv
    subst hkv
    simp
  | cons kv' rest ih =>
    obtain ⟨k', vs'⟩ := kv'
    have hrest : valsNE rest := fun kv hkv => h kv (List.mem_cons_of_mem _ hkv)
    by_cases hk : k' = k
    · subst hk
      intro kv hkv
      have hkv' : kv = (k', vs' ++ [v]) ∨ kv ∈ rest := by
        simpa [dictAppend] using hkv
      rcases hkv' with h1 | h1
      · subst h1; simp
      · exact hrest kv h1
    · intro kv hkv
      have hkv' : kv = (k', vs') ∨ kv ∈ dictAppend rest k v := by
        simpa [dictAppend, hk] using hkv
      rcases hkv' with h1 | h1
      · subst h1; exact h _ (List.mem_cons_self _ _)
      · exact ih hrest kv h1

theorem valsNE_scanKws (pth : String) (c : List Char) (ci : Bool) :
    ∀ (kws : List KW) (d : Dict), valsNE d → valsNE (scanKws d pth c ci kws) := by
  intro kws
  induction kws with
  | nil => intro d h; simpa [scanKws] using h
  | cons kw rest ih =>
    intro d h
    simp only [scanKws]
    apply ih
    by_cases hm : matchKw ci kw c
    · simpa [hm] using valsNE_dictAppend h kw pth
    · simpa [hm] using h

theorem valsNE_workerProc (files : List SrcFile) (kws : List KW) (ci : Bool) :
    valsNE (workerProc files kws ci) := by
  have aux : ∀ (fs : List SrcFile) (d : Dict), valsNE d →
      valsNE (fs.foldl (fun a f => scanFileInto a f kws ci) d) := by
    intro fs
    induction fs with
    | nil => intro d h; simpa using h
    | cons f rest ih =>
      intro d h
      simp only [List.foldl_cons]
      apply ih
      cases hc : f.content with
      | none => simpa [scanFileInto, hc] using h
      | some c =>
        simp only [scanFileInto, hc]
        exact valsNE_scanKws f.path c ci kws d h
  exact aux files [] (by intro kv hkv; simp at hkv)

theorem valsNE_dictExtendKey {d : Dict} {vs : List String} (h : valsNE d)
    (hvs : vs ≠ []) (k : KW) : valsNE (dictExtendKey d k vs) := by
  induction d with
  | nil =>
    intro kv hkv
    simp only [dictExtendKey, List.mem_singleton] at hkv
    subst hkv
    exact hvs
  | cons kv' rest ih =>
    obtain ⟨k', vs'⟩ := kv'
    have hrest : valsNE rest := fun kv hkv => h kv (List.mem_cons_of_mem _ hkv)
    by_cases hk : k' = k
    · subst hk
      intro kv hkv
      have hkv' : kv = (k', vs' ++ vs) ∨ kv ∈ rest := by
        simpa [dictExtendKey] using hkv
      rcases hkv' with h1 | h1
      · subst h1
        simp only [ne_eq, List.append_eq_nil]
        intro hcontra
        exact hvs hcontra.2
      · exact hrest kv h1
    · intro kv hkv
      have hkv' : kv = (k', vs') ∨ kv ∈ dictExtendKey rest k vs := by
        simpa [dictExtendKey, hk] using hkv
      rcases hkv' with h1 | h1
      · subst h1; exact h _ (List.mem_cons_self _ _)
      · exact ih hrest kv h1

theorem valsNE_mergeInto :
    ∀ (p : Dict) (acc : Dict), valsNE acc → valsNE p → valsNE (mergeInto acc p) := by
  intro p
  induction p with
  | nil => intro acc hacc _; simpa [mergeInto] using hacc
  | cons kv rest ih =>
    intro acc hacc hp
    obtain ⟨k, vs⟩ := kv
    have hvs : vs ≠ [] := hp _ (List.mem_cons_self _ _)
    have hrest : valsNE rest := fun kv' hkv' => hp kv' (List.mem_cons_of_mem _ hkv')
    have : mergeInto acc ((k, vs) :: rest) =
        mergeInto (dictExtendKey acc k vs) rest := rfl
    rw [this]
    exact ih _ (valsNE_dictExtendKey hacc hvs k) hrest

theorem valsNE_aggregate :
    ∀ (ps : List Dict), (∀ p ∈ ps, valsNE p) → valsNE (aggregate ps) := by
  have aux : ∀ (ps : List Dict) (acc : Dict), valsNE acc → (∀ p ∈ ps, valsNE p) →
      valsNE (ps.foldl mergeInto acc) := by
    intro ps
    induction ps with
    | nil => intro acc hacc _; simpa using hacc
    | cons p rest ih =>
      intro acc hacc hps
      simp only [List.foldl_cons]
      exact ih _ (valsNE_mergeInto p acc hacc (hps _ (List.mem_cons_self _ _)))
        (fun q hq => hps q (List.mem_cons_of_mem _ hq))
  intro ps hps
  exact aux ps [] (by intro kv hkv; simp at hkv) hps

theorem findD_mergeInto :
    ∀ (p : Dict) (acc : Dict) (key : KW), keysNodup p →
      findD (mergeInto acc p) key = findD acc key ++ findD p key := by
  intro p
  induction p with
  | nil => intro acc key _; simp [mergeInto, findD_nil]
  | cons kv rest ih =>
    intro acc key hnd
    obtain ⟨k, vs⟩ := kv
    simp only [keysNodup, List.map_cons, List.nodup_cons] at hnd
    have hstep : mergeInto acc ((k, vs) :: rest) =
        mergeInto (dictExtendKey acc k vs) rest := rfl
    rw [hstep, ih _ key hnd.2, findD_dictExtendKey]
    rcases eq_or_ne key k with rfl | hk
    · have : dictFind rest key = none := dictFind_eq_none_of_not_mem hnd.1
      simp [findD, dictFind, this]
    · simp [findD, dictFind, if_neg (Ne.symm hk), hk]

theorem findD_aggregate (key : KW) :
    ∀ (ps : List Dict), (∀ p ∈ ps, keysNodup p) →
      findD (aggregate ps) key = (ps.map (fun p => findD p key)).flatten := by
  have aux : ∀ (ps : List Dict) (acc : Dict), (∀ p ∈ ps, keysNodup p) →
      findD (ps.foldl mergeInto acc) key =
        findD acc key ++ (ps.map (fun p => findD p key)).flatten := by
    intro ps
    induction ps with
    | nil => intro acc _; simp
    | cons p rest ih =>
      intro acc hps
      simp only [List.foldl_cons, List.map_cons, List.flatten]
      rw [ih _ (fun q hq => hps q (List.mem_cons_of_mem _ hq)),
        findD_mergeInto p acc key (hps _ (List.mem_cons_self _ _)),
        List.append_assoc]
  intro ps hps
  simpa [aggregate, findD_nil] using aux ps [] hps

theorem splitSucc_nil (k : Nat) : splitSucc k [] = [] := by
  simp [splitSucc]

theorem splitSucc_cons (k : Nat) (a : SrcFile) (rest : List SrcFile) :
    splitSucc k (a :: rest) =
      ((a :: rest).take (k + 1)) :: splitSucc k (rest.drop k) := by
  simp [splitSucc]

theorem splitSucc_eq_nil_iff (k : Nat) (seq : List SrcFile) :
    splitSucc k seq = [] ↔ seq = [] := by
  cases seq with
  | nil => simp [splitSucc_nil]
  | cons a rest => simp [splitSucc_cons]

theorem splitSucc_flatten_aux (k : Nat) :
    ∀ (fuel : Nat) (seq : List SrcFile), seq.length ≤ fuel →
      (splitSucc k seq).flatten = seq := by
  intro fuel
  induction fuel with
  | zero =>
    intro seq h
    have hseq : seq = [] := List.eq_nil_of_length_eq_zero (Nat.le_zero.mp h)
    subst hseq
    simp [splitSucc_nil]
  | succ fuel ih =>
    intro seq h
    cases seq with
    | nil => simp [splitSucc_nil]
    | cons a rest =>
      rw [splitSucc_cons, List.flatten_cons]
      have hlen : (rest.drop k).length ≤ fuel := by
        simp only [List.length_drop]
        simp only [List.length_cons] at h
        omega
      rw [ih _ hlen]
      have hdrop : rest.drop k = (a :: rest).drop (k + 1) := by
        rw [List.drop_succ_cons]
      rw [hdrop, List.take_append_drop]

theorem splitSucc_flatten (k : Nat) (seq : List SrcFile) :
    (splitSucc k seq).flatten = seq :=
  splitSucc_flatten_aux k seq.length seq le_rfl

theorem splitSucc_chunks_bounded (k : Nat) :
    ∀ (fuel : Nat) (seq : List SrcFile), seq.length ≤ fuel →
      ∀ c ∈ splitSucc k seq, c ≠ [] ∧ c.length ≤ k + 1 := by
  intro fuel
  induction fuel with
  | zero =>
    intro seq h
    have hseq : seq = [] := List.eq_nil_of_length_eq_zero (Nat.le_zero.mp h)
    subst hseq
    simp [splitSucc_nil]
  | succ fuel ih =>
    intro seq h c hc
    cases seq with
    | nil => simp [splitSucc_nil] at hc
    | cons a rest =>
      rw [splitSucc_cons] at hc
      rcases List.mem_cons.mp hc with rfl | hc
      · constructor
        · rw [List.take_succ_cons]
          exact List.cons_ne_nil a _
        · rw [List.length_take]
          exact Nat.min_le_left _ _
      · have hlen : (rest.drop k).length ≤ fuel := by
          simp only [List.length_drop]
          simp only [List.length_cons] at h
          omega
        exact ih _ hlen c hc

theorem splitSucc_dropLast_aux (k : Nat) :
    ∀ (fuel : Nat) (seq : List SrcFile), seq.length ≤ fuel →
      ∀ c ∈ (splitSucc k seq).dropLast, c.length = k + 1 := by
  intro fuel
  induction fuel with
  | zero =>
    intro seq h
    have hseq : seq = [] := List.eq_nil_of_length_eq_zero (Nat.le_zero.mp h)
    subst hseq
    simp [splitSucc_nil]
  | succ fuel ih =>
    intro seq h c hc
    cases seq with
    | nil => simp [splitSucc_nil] at hc
    | cons a rest =>
      rw [splitSucc_cons] at hc
      cases htail : splitSucc k (rest.drop k) with
      | nil =>
        rw [htail, List.dropLast_single] at hc
        simp at hc
      | cons t ts =>
        rw [htail, List.dropLast_cons₂] at hc
        have hlenrest : k < rest.length := by
          have hne : rest.drop k ≠ [] := by
            intro hnil
            rw [(splitSucc_eq_nil_iff k _).mpr hnil] at htail
            exact List.cons_ne_nil t ts htail.symm
          by_contra hle
          push_neg at hle
          exact hne (List.drop_eq_nil_of_le hle)
        rcases List.mem_cons.mp hc with rfl | hc
        · rw [List.length_take, List.length_cons]
          omega
        · have hlen : (rest.drop k).length ≤ fuel := by
            simp only [List.length_drop]
            simp only [List.length_cons] at h
            omega
          have := ih _ hlen c
          rw [htail] at this
          exact this hc

theorem ceilStep (k L : Nat) :
    (L + 1 + k) / (k + 1) = ((L - k) + k) / (k + 1) + 1 := by
  have h1 : L + 1 + k = L + (k + 1) := by omega
  rw [h1, Nat.add_div_right _ (Nat.succ_pos k)]
  rcases le_or_lt L k with h | h
  · have h2 : L - k = 0 := by omega
    have h3 : L / (k + 1) = 0 := Nat.div_eq_of_lt (by omega)
    have h4 : (0 + k) / (k + 1) = 0 := Nat.div_eq_of_lt (by omega)
    rw [h2, h3, h4]
  · have h2 : L - k + k = L := by omega
    rw [h2]

theorem rangeChunks_eq_splitSucc (k : Nat) :
    ∀ (fuel : Nat) (l : List SrcFile) (start : Nat) (seq : List SrcFile),
      seq.length ≤ fuel → l.drop start = seq →
      (List.range' start ((seq.length + k) / (k + 1)) (k + 1)).map
          (fun i => (l.drop i).take (k + 1)) = splitSucc k seq := by
  intro fuel
  induction fuel with
  | zero =>
    intro l start seq hf hd
    have hseq : seq = [] := List.eq_nil_of_length_eq_zero (Nat.le_zero.mp hf)
    subst hseq
    have hcnt : (List.length ([] : List SrcFile) + k) / (k + 1) = 0 := by
      simp only [List.length_nil, Nat.zero_add]
      exact Nat.div_eq_of_lt (Nat.lt_succ_self k)
    rw [hcnt]
    simp [splitSucc_nil, List.range']
  | succ fuel ih =>
    intro l start seq hf hd
    cases seq with
    | nil =>
      have hcnt : (List.length ([] : List SrcFile) + k) / (k + 1) = 0 := by
        simp only [List.length_nil, Nat.zero_add]
        exact Nat.div_eq_of_lt (Nat.lt_succ_self k)
      rw [hcnt]
      simp [splitSucc_nil, List.range']
    | cons a rest =>
      have hcnt : ((a :: rest).length + k) / (k + 1) =
          (((a :: rest).drop (k + 1)).length + k) / (k + 1) + 1 := by
        simp only [List.length_cons, List.length_drop]
        have heq : rest.length + 1 - (k + 1) = rest.length - k := by omega
        rw [heq]
        exact ceilStep k rest.length
      rw [hcnt, List.range'_succ, List.map_cons]
      have htail : l.drop (start + (k + 1)) = (a :: rest).drop (k + 1) := by
        rw [← hd, List.drop_drop]
      have hlen : ((a :: rest).drop (k + 1)).length ≤ fuel := by
        simp only [List.length_drop, List.length_cons]
        simp only [List.length_cons] at hf
        omega
      have hrec := ih l (start + (k + 1)) ((a :: rest).drop (k + 1)) hlen htail
      rw [splitSucc_cons, hd, hrec, List.drop_succ_cons]

theorem chunksPy_eq_splitSucc (seq : List SrcFile) (n : Nat) (hn : 0 < n)
    (hne : seq ≠ []) :
    ∃ k, (seq.length + n - 1) / n = k + 1 ∧
      chunksPy seq n = some (splitSucc k seq) := by
  have hlen : 0 < seq.length := List.length_pos.mpr hne
  have hsz : 0 < (seq.length + n - 1) / n := Nat.div_pos (by omega) hn
  obtain ⟨k, hk⟩ : ∃ k, (seq.length + n - 1) / n = k + 1 :=
    ⟨(seq.length + n - 1) / n - 1, by omega⟩
  refine ⟨k, hk, ?_⟩
  have hn0 : ¬ n = 0 := Nat.pos_iff_ne_zero.mp hn
  have hchunks : chunksPy seq n =
      (pyRange seq.length ((seq.length + n - 1) / n)).map
        (fun idxs => idxs.map (fun i => (seq.drop i).take ((seq.length + n - 1) / n))) := by
    simp only [chunksPy, if_neg hn0]
  rw [hchunks, hk]
  have harg : seq.length + (k + 1) - 1 = seq.length + k := by omega
  have hrange : pyRange seq.length (k + 1) =
      some (List.range' 0 ((seq.length + k) / (k + 1)) (k + 1)) := by
    simp only [pyRange, if_neg (Nat.succ_ne_zero k), harg]
  rw [hrange, Option.map_some']
  congr 1
  exact rangeChunks_eq_splitSucc k seq.length seq 0 seq le_rfl (List.drop_zero seq)

theorem splitSucc_length (k : Nat) (seq : List SrcFile) :
    (splitSucc k seq).length = (seq.length + k) / (k + 1) := by
  have h := rangeChunks_eq_splitSucc k seq.length seq 0 seq le_rfl (List.drop_zero seq)
  rw [← h, List.length_map, List.length_range']

theorem flatten_filter_nonempty (g : SrcFile → List String) :
    ∀ (cs : List (List SrcFile)),
      ((cs.filter (fun c => !c.isEmpty)).map (fun c => (c.map g).flatten)).flatten =
        ((cs.flatten.map g)).flatten := by
  intro cs
  induction cs with
  | nil => simp
  | cons c rest ih =>
    cases c with
    | nil => simpa using ih
    | cons x xs =>
      simp only [List.filter_cons, List.isEmpty_cons, Bool.not_false, if_true,
        List.flatten_cons, List.map_cons, List.map_append, List.flatten_append,
        List.append_assoc]
      simp only [List.flatten_cons] at ih ⊢
      rw [ih]

theorem searchPipeline_findD (files : List SrcFile) (kws : List KW) (n : Nat)
    (ci : Bool) (hn : 0 < n) :
    ∃ d, searchPipeline files kws n ci = some d ∧
      (∀ key, findD d key = (files.map (contribList kws ci key)).flatten) ∧
      valsNE d := by
  by_cases hf : files = []
  · subst hf
    refine ⟨[], by simp [searchPipeline], fun key => by simp [findD_nil], ?_⟩
    intro kv hkv
    simp at hkv
  · obtain ⟨k, hk, hch⟩ := chunksPy_eq_splitSucc files n hn hf
    have hfalse : files.isEmpty = false := by
      cases files with
      | nil => exact absurd rfl hf
      | cons a rest => rfl
    have hpipe : searchPipeline files kws n ci =
        some (aggregate (((splitSucc k files).filter (fun c => !c.isEmpty)).map
          (fun c => workerProc c kws ci))) := by
      simp [searchPipeline, hfalse, hch]
    refine ⟨_, hpipe, ?_, ?_⟩
    · intro key
      have hnodups : ∀ p ∈ ((splitSucc k files).filter (fun c => !c.isEmpty)).map
          (fun c => workerProc c kws ci), keysNodup p := by
        intro p hp
        obtain ⟨c, _, rfl⟩ := List.mem_map.mp hp
        exact keysNodup_workerProc c kws ci
      rw [findD_aggregate key _ hnodups, List.map_map]
      have hcomp : ((fun p => findD p key) ∘ (fun c => workerProc c kws ci)) =
          fun c => ((c.map (contribList kws ci key)).flatten) := by
        funext c
        simp [Function.comp, findD_workerProc]
      rw [hcomp, flatten_filter_nonempty, splitSucc_flatten]
    · apply valsNE_aggregate
      intro p hp
      obtain ⟨c, _, rfl⟩ := List.mem_map.mp hp
      exact valsNE_workerProc c kws ci

theorem countPath_append (l1 l2 : List String) (p : String) :
    countPath (l1 ++ l2) p = countPath l1 p + countPath l2 p := by
  induction l1 with
  | nil => simp [countPath]
  | cons q rest ih =>
    simp [countPath, ih, Nat.add_assoc]

theorem countPath_flatten (ls : List (List String)) (p : String) :
    countPath ls.flatten p = (ls.map (fun l => countPath l p)).sum := by
  induction ls with
  | nil => simp [countPath]
  | cons l rest ih =>
    simp only [List.flatten_cons, countPath_append, List.map_cons, List.sum_cons, ih]

theorem countPath_replicate (m : Nat) (q p : String) :
    countPath (List.replicate m q) p = if q = p then m else 0 := by
  induction m with
  | zero => simp [countPath]
  | succ m ih =>
    simp only [List.replicate_succ, countPath, ih]
    by_cases h : q = p <;> simp [h, Nat.add_comm]

theorem countPath_pos_iff_mem (l : List String) (p : String) :
    0 < countPath l p ↔ p ∈ l := by
  induction l with
  | nil => simp [countPath]
  | cons q rest ih =>
    simp only [countPath, List.mem_cons]
    by_cases h : q = p
    · subst h
      simp
    · simp only [if_neg h, Nat.zero_add, ih]
      constructor
      · exact Or.inr
      · rintro (rfl | hm)
        · exact absurd rfl h
        · exact hm

theorem countKw_pos_of_mem {kws : List KW} {key : KW} (h : key ∈ kws) :
    0 < countKw kws key := by
  induction kws with
  | nil => simp at h
  | cons k rest ih =>
    rcases List.mem_cons.mp h with rfl | hm
    · simp [countKw]
    · simp only [countKw]
      have := ih hm
      omega

theorem countKw_eq_zero_of_not_mem {kws : List KW} {key : KW} (h : key ∉ kws) :
    countKw kws key = 0 := by
  induction kws with
  | nil => rfl
  | cons k rest ih =>
    simp only [List.mem_cons] at h
    push_neg at h
    simp only [countKw, if_neg (fun hk : k = key => h.1 hk.symm), Nat.zero_add]
    exact ih h.2

theorem countKw_le_one_of_nodup {kws : List KW} (h : kws.Nodup) (key : KW) :
    countKw kws key ≤ 1 := by
  induction kws with
  | nil => simp [countKw]
  | cons k rest ih =>
    rw [List.nodup_cons] at h
    by_cases hk : k = key
    · subst hk
      simp only [countKw, if_pos rfl]
      rw [countKw_eq_zero_of_not_mem h.1]
      simp
    · simp only [countKw, if_neg hk, Nat.zero_add]
      exact ih h.2

theorem path_inj {files : List SrcFile}
    (h : (files.map SrcFile.path).Nodup) :
    ∀ f ∈ files, ∀ g ∈ files, f.path = g.path → f = g := by
  intro f hf g hg hfg
  exact List.inj_on_of_nodup_map h hf hg hfg

theorem countPath_contribList (kws : List KW) (ci : Bool) (key : KW) (f : SrcFile)
    (p : String) :
    countPath (contribList kws ci key f) p =
      match f.content with
      | none => 0
      | some c =>
        if matchKw ci key c ∧ f.path = p then countKw kws key else 0 := by
  cases hc : f.content with
  | none => simp [contribList, hc, countPath]
  | some c =>
    simp only [contribList, hc, countPath_replicate]
    by_cases hm : matchKw ci key c
    · by_cases hp : f.path = p
      · simp [hm, hp]
      · simp [hm, hp]
    · have hm' : ¬ (matchKw ci key c = true ∧ f.path = p) := fun hcon => hm hcon.1
      simp only [hm, if_false, if_neg hm']
      simp [countPath]

theorem countPath_contribList_le (kws : List KW) (ci : Bool) (K : KW) (p : String)
    (f : SrcFile) :
    countPath (contribList kws ci K f) p ≤ if f.path = p then countKw kws K else 0 := by
  cases hc : f.content with
  | none =>
    simp [contribList, hc, countPath]
  | some c =>
    simp only [contribList, hc, countPath_replicate]
    by_cases hp : f.path = p
    · simp only [if_pos hp]
      by_cases hm : matchKw ci K c <;> simp [hm]
    · simp [hp]

theorem countPath_contribList_ne (kws : List KW) (ci : Bool) (K : KW) (p : String)
    {f : SrcFile} (h : f.path ≠ p) :
    countPath (contribList kws ci K f) p = 0 := by
  have := countPath_contribList_le kws ci K p f
  rw [if_neg h] at this
  omega

theorem sum_contrib_le (kws : List KW) (ci : Bool) (K : KW) (p : String) :
    ∀ (files : List SrcFile), (files.map SrcFile.path).Nodup →
      (files.map (fun f => countPath (contribList kws ci K f) p)).sum ≤
        countKw kws K := by
  intro files
  induction files with
  | nil => intro _; simp
  | cons f rest ih =>
    intro hnodup
    rw [List.map_cons, List.nodup_cons] at hnodup
    obtain ⟨hnotmem, hnd⟩ := hnodup
    simp only [List.map_cons, List.sum_cons]
    by_cases hp : f.path = p
    · have hrest : (rest.map (fun g => countPath (contribList kws ci K g) p)).sum = 0 := by
        apply List.sum_eq_zero
        intro x hx
        rw [List.mem_map] at hx
        obtain ⟨g, hg, rfl⟩ := hx
        apply countPath_contribList_ne
        intro hgp
        apply hnotmem
        rw [List.mem_map]
        exact ⟨g, hg, by rw [hgp, hp]⟩
      rw [hrest]
      have := countPath_contribList_le kws ci K p f
      rw [if_pos hp] at this
      omega
    · have hhead := countPath_contribList_ne kws ci K p hp
      rw [hhead]
      have := ih hnd
      omega

theorem workerProc_single (pth : String) (c : List Char) (kw : KW) (ci : Bool) :
    dictFind (workerProc [⟨pth, some c⟩] [kw] ci) kw =
      if matchKw ci kw c then some [pth] else none := by
  simp only [workerProc, List.foldl_cons, List.foldl_nil, scanFileInto]
  by_cases hm : matchKw ci kw c
  · simp [scanKws, hm, dictAppend, dictFind]
  · simp [scanKws, hm, dictFind]

/-- C4 counterexample: partitioning the empty file sequence with the
positive worker count 1 does not return an empty chunk sequence; the
computed chunk size is `0`, so `range(0, 0, 0)` raises `ValueError`
(modelled as `none`). -/
theorem claim4_counterexample :
    chunksPy ([] : List SrcFile) 1 = none ∧
    chunksPy ([] : List SrcFile) 1 ≠ some [] := by
  exact ⟨by decide, by decide⟩

/-- C4 (amended): for every positive integer `n`, partitioning an empty
file sequence with `n` workers raises `ValueError` (the chunk size is
computed as `0` and `range` rejects a zero step); the partition
function does not return normally on empty input, so the caller must
(and does) short-circuit the empty file list before partitioning. -/
theorem claim4_empty_chunks_raises (n : Nat) (hn : 0 < n) :
    chunksPy ([] : List SrcFile) n = none := by
  have hn0 : ¬ n = 0 := by omega
  have hsize : (n - 1) / n = 0 := Nat.div_eq_of_lt (by omega)
  simp [chunksPy, hn0, pyRange, hsize]

/-- C4 witness: the amended claim at the concrete worker count 1. -/
theorem claim4_witness : 0 < 1 ∧ chunksPy ([] : List SrcFile) 1 = none :=
  ⟨by decide, claim4_empty_chunks_raises 1 (by decide)⟩

/-- C5: for every non-empty file sequence and positive `n`, the
partition returns contiguous chunks whose concatenation is exactly the
input (no file skipped, duplicated, or reordered), every chunk has at
most `ceil(len/n)` elements, and every chunk except possibly the last
has exactly `ceil(len/n)` elements. -/
theorem claim5_chunks_partition (seq : List SrcFile) (n : Nat)
    (hne : seq ≠ []) (hn : 0 < n) :
    ∃ cs, chunksPy seq n = some cs ∧
      cs.flatten = seq ∧
      (∀ c ∈ cs.dropLast, c.length = (seq.length + n - 1) / n) ∧
      (∀ c ∈ cs, c.length ≤ (seq.length + n - 1) / n) := by
  obtain ⟨k, hk, hch⟩ := chunksPy_eq_splitSucc seq n hn hne
  refine ⟨_, hch, splitSucc_flatten k seq, ?_, ?_⟩
  · intro c hc
    rw [hk]
    exact splitSucc_dropLast_aux k seq.length seq le_rfl c hc
  · intro c hc
    rw [hk]
    exact (splitSucc_chunks_bounded k seq.length seq le_rfl c hc).2

/-- C5 witness: the partition property at three concrete files split
into two chunks of sizes 2 and 1. -/
theorem claim5_witness :
    ([⟨"a", none⟩, ⟨"b", none⟩, ⟨"c", none⟩] : List SrcFile) ≠ [] ∧ 0 < 2 ∧
    ∃ cs, chunksPy [⟨"a", none⟩, ⟨"b", none⟩, ⟨"c", none⟩] 2 = some cs ∧
      cs.flatten = [⟨"a", none⟩, ⟨"b", none⟩, ⟨"c", none⟩] ∧
      (∀ c ∈ cs.dropLast,
        c.length = (([⟨"a", none⟩, ⟨"b", none⟩, ⟨"c", none⟩] : List SrcFile).length + 2 - 1) / 2) ∧
      (∀ c ∈ cs,
        c.length ≤ (([⟨"a", none⟩, ⟨"b", none⟩, ⟨"c", none⟩] : List SrcFile).length + 2 - 1) / 2) :=
  ⟨by decide, by decide,
    claim5_chunks_partition [⟨"a", none⟩, ⟨"b", none⟩, ⟨"c", none⟩] 2 (by decide) (by decide)⟩

/-- C10: for every non-empty file sequence and every `n ≥ 1`, the
partition succeeds, every produced chunk is non-empty, the number of
chunks is at most `n`, and filtering out empty chunks (the
`if not batch: continue` guard at dispatch) leaves the chunk list
unchanged: the guard never fires on the inputs the orchestrator
actually passes. -/
theorem claim10_chunks_nonempty (seq : List SrcFile) (n : Nat)
    (hne : seq ≠ []) (hn : 0 < n) :
    ∃ cs, chunksPy seq n = some cs ∧
      (∀ c ∈ cs, c ≠ []) ∧ cs.length ≤ n ∧
      cs.filter (fun c => !c.isEmpty) = cs := by
  obtain ⟨k, hk, hch⟩ := chunksPy_eq_splitSucc seq n hn hne
  have hbound := fun c hc => splitSucc_chunks_bounded k seq.length seq le_rfl c hc
  refine ⟨_, hch, fun c hc => (hbound c hc).1, ?_, ?_⟩
  · rw [splitSucc_length]
    have hL : 0 < seq.length := List.length_pos.mpr hne
    have hdm := Nat.div_add_mod (seq.length + n - 1) n
    rw [hk] at hdm
    have hr : (seq.length + n - 1) % n < n := Nat.mod_lt _ hn
    set M := n * (k + 1) with hM
    have hLM : seq.length ≤ M := by omega
    have hexp : (n + 1) * (k + 1) = M + (k + 1) := by rw [hM]; ring
    have hlt : seq.length + k < (n + 1) * (k + 1) := by omega
    exact Nat.lt_succ_iff.mp ((Nat.div_lt_iff_lt_mul (Nat.succ_pos k)).mpr hlt)
  · apply List.filter_eq_self.mpr
    intro c hc
    have hcne := (hbound c hc).1
    cases c with
    | nil => exact absurd rfl hcne
    | cons x xs => simp

/-- C10 witness: three concrete files with `n = 2`. -/
theorem claim10_witness :
    ([⟨"a", none⟩, ⟨"b", none⟩, ⟨"c", none⟩] : List SrcFile) ≠ [] ∧ 0 < 2 ∧
    ∃ cs, chunksPy [⟨"a", none⟩, ⟨"b", none⟩, ⟨"c", none⟩] 2 = some cs ∧
      (∀ c ∈ cs, c ≠ []) ∧ cs.length ≤ 2 ∧
      cs.filter (fun c => !c.isEmpty) = cs :=
  ⟨by decide, by decide,
    claim10_chunks_nonempty [⟨"a", none⟩, ⟨"b", none⟩, ⟨"c", none⟩] 2 (by decide) (by decide)⟩

/-- C8: a file whose read or decode fails (modelled by `content = none`)
is skipped by the worker scan: the scan of a chunk containing it
returns normally and produces exactly the partial result of the same
chunk without that file, so all other files' matches are preserved and
no exception propagates. -/
theorem claim8_unreadable_skipped (pre post : List SrcFile) (bad : SrcFile)
    (kws : List KW) (ci : Bool) (hbad : bad.content = none) :
    workerProc (pre ++ bad :: post) kws ci = workerProc (pre ++ post) kws ci := by
  simp only [workerProc, List.foldl_append, List.foldl_cons]
  have hskip : ∀ d : Dict, scanFileInto d bad kws ci = d := by
    intro d
    simp [scanFileInto, hbad]
  rw [hskip]

/-- C8 witness: a chunk with one readable matching file and one
unreadable file scans to the same partial result as without the
unreadable file. -/
theorem claim8_witness :
    (⟨"bad", none⟩ : SrcFile).content = none ∧
    workerProc ([⟨"good", some ['x']⟩] ++ (⟨"bad", none⟩ : SrcFile) :: []) [['x']] false =
      workerProc ([⟨"good", some ['x']⟩] ++ []) [['x']] false :=
  ⟨rfl, claim8_unreadable_skipped [⟨"good", some ['x']⟩] [] (⟨"bad", none⟩ : SrcFile)
    [['x']] false rfl⟩

/-- C9: for any file count, the worker counts of both variants equal
`max(1, min(file_count, available_parallelism))`, where the
parallelism hint defaults to 2 (process variant) and 4 (thread
variant) when the platform reports none; a reported positive CPU count
is used as-is. -/
theorem claim9_worker_count (fileCount : Nat) (cpu : Option Nat)
    (hcpu : ∀ c, cpu = some c → 0 < c) :
    numProcsMP fileCount cpu = max 1 (min fileCount (cpu.getD 2)) ∧
    numThreadsTH fileCount cpu = max 1 (min fileCount (cpu.getD 4)) := by
  cases cpu with
  | none => exact ⟨rfl, rfl⟩
  | some c =>
    have hc : 0 < c := hcpu c rfl
    have hc0 : ¬ c = 0 := by omega
    simp [numProcsMP, numThreadsTH, pyOrNat, hc0]

/-- C9 witness: five files on a machine reporting eight CPUs. -/
theorem claim9_witness :
    (∀ c, (some 8 : Option Nat) = some c → 0 < c) ∧
    numProcsMP 5 (some 8) = max 1 (min 5 ((some 8 : Option Nat).getD 2)) ∧
    numThreadsTH 5 (some 8) = max 1 (min 5 ((some 8 : Option Nat).getD 4)) := by
  have hcpu : ∀ c, (some 8 : Option Nat) = some c → 0 < c := by
    intro c h
    injection h with h8
    omega
  exact ⟨hcpu, claim9_worker_count 5 (some 8) hcpu⟩

/-- C6: the scanner records a match for a file exactly when the keyword
matches the content — under `case_insensitive = true` iff the
lowercased keyword is a substring of the lowercased content, under
`false` iff the keyword is an exact substring; in particular the
keyword `"Foo"` matches the content `"the foo bar"` only in the
case-insensitive mode. -/
theorem claim6_case_toggle (pth : String) (c kw : List Char) :
    (dictFind (workerProc [⟨pth, some c⟩] [kw] true) kw =
      if hasSub (toLowerTxt kw) (toLowerTxt c) then some [pth] else none) ∧
    (dictFind (workerProc [⟨pth, some c⟩] [kw] false) kw =
      if hasSub kw c then some [pth] else none) ∧
    matchKw true ("Foo".data) ("the foo bar".data) = true ∧
    matchKw false ("Foo".data) ("the foo bar".data) = false := by
  refine ⟨?_, ?_, by decide, by decide⟩
  · rw [workerProc_single pth c kw true]
    simp [matchKw]
  · rw [workerProc_single pth c kw false]
    simp [matchKw]

/-- C7 counterexample: a file with suffix `.txt` is NOT kept when
`allow_extensions` contains only `.TXT`, although the two compare
equal case-insensitively — the code lowercases only the file suffix,
not the set entries, so the claimed symmetric case-insensitive
comparison fails. -/
theorem claim7_counterexample :
    filterFiles [(".TXT".data)] [⟨"f.txt", (".txt".data)⟩] = [] ∧
    toLowerTxt (".txt".data) = toLowerTxt (".TXT".data) ∧
    ([(".TXT".data)] : List (List Char)) ≠ [] := by
  exact ⟨by decide, by decide, by decide⟩

/-- C7 (amended): a file is kept iff the filter is absent/empty or its
lowercased suffix is literally a member of `allow_extensions` — so a
suffix `.TXT` is kept when the set contains `.txt`, but a suffix
`.txt` is NOT kept when the set contains only `.TXT`; an absent or
empty filter keeps all files. -/
theorem claim7_filter_amended (allow : List (List Char)) (entries : List FsEntry)
    (q : FsEntry) :
    q ∈ filterFiles allow entries ↔
      q ∈ entries ∧ (allow = [] ∨ toLowerTxt q.suffix ∈ allow) := by
  simp only [filterFiles, List.mem_filter]
  cases allow with
  | nil => simp
  | cons a rest =>
    simp [List.isEmpty_cons, List.contains, List.elem_iff]

/-- C3: for the same files, keywords and flag, running the pipeline
with any two positive worker counts yields final mappings containing
exactly the same (keyword, file path) pairs. -/
theorem claim3_partition_invariance (files : List SrcFile) (kws : List KW)
    (ci : Bool) (n1 n2 : Nat) (h1 : 0 < n1) (h2 : 0 < n2) :
    ∃ d1 d2, searchPipeline files kws n1 ci = some d1 ∧
      searchPipeline files kws n2 ci = some d2 ∧
      ∀ K p, ((∃ vs, dictFind d1 K = some vs ∧ p ∈ vs) ↔
              (∃ vs, dictFind d2 K = some vs ∧ p ∈ vs)) := by
  obtain ⟨d1, hp1, hf1, _⟩ := searchPipeline_findD files kws n1 ci h1
  obtain ⟨d2, hp2, hf2, _⟩ := searchPipeline_findD files kws n2 ci h2
  refine ⟨d1, d2, hp1, hp2, fun K p => ?_⟩
  rw [← mem_findD_iff, ← mem_findD_iff, hf1, hf2]

/-- C3 witness: one matching file, worker counts 1 and 2. -/
theorem claim3_witness :
    0 < 1 ∧ 0 < 2 ∧
    ∃ d1 d2, searchPipeline [⟨"a", some ['x']⟩] [['x']] 1 false = some d1 ∧
      searchPipeline [⟨"a", some ['x']⟩] [['x']] 2 false = some d2 ∧
      ∀ K p, ((∃ vs, dictFind d1 K = some vs ∧ p ∈ vs) ↔
              (∃ vs, dictFind d2 K = some vs ∧ p ∈ vs)) :=
  ⟨by decide, by decide,
    claim3_partition_invariance [⟨"a", some ['x']⟩] [['x']] false 1 2
      (by decide) (by decide)⟩

/-- C1: over a directory of readable files with distinct paths, for
every keyword `K` of the keyword sequence and every file `F`, the
returned mapping has `K` with `F`'s path in `result[K]` iff `K`
matches `F`'s content (case-insensitively when the flag is set); and a
keyword that matches no file is absent from the mapping entirely. -/
theorem claim1_search_complete (files : List SrcFile) (kws : List KW) (ci : Bool)
    (n : Nat) (hn : 0 < n)
    (hread : ∀ f ∈ files, f.content ≠ none)
    (hpaths : (files.map SrcFile.path).Nodup) :
    ∃ d, searchPipeline files kws n ci = some d ∧
      (∀ K ∈ kws, ∀ F ∈ files, ∀ c, F.content = some c →
        ((∃ vs, dictFind d K = some vs ∧ F.path ∈ vs) ↔ matchKw ci K c = true)) ∧
      (∀ K, (∀ F ∈ files, ∀ c, F.content = some c → matchKw ci K c = false) →
        dictFind d K = none) := by
  obtain ⟨d, hp, hfind, hvne⟩ := searchPipeline_findD files kws n ci hn
  refine ⟨d, hp, ?_, ?_⟩
  · intro K hK F hF c hc
    rw [← mem_findD_iff, hfind]
    constructor
    · intro hmem
      rw [List.mem_flatten] at hmem
      obtain ⟨l, hl, hpl⟩ := hmem
      rw [List.mem_map] at hl
      obtain ⟨f, hfmem, rfl⟩ := hl
      cases hcf : f.content with
      | none => simp [contribList, hcf] at hpl
      | some cf =>
        simp only [contribList, hcf] at hpl
        rw [List.mem_replicate] at hpl
        obtain ⟨hne0, hpath⟩ := hpl
        have hmatch : matchKw ci K cf = true := by
          by_cases hm : matchKw ci K cf
          · exact hm
          · rw [if_neg hm] at hne0
            exact absurd rfl hne0
        have hfF : f = F := path_inj hpaths f hfmem F hF hpath.symm
        subst hfF
        rw [hc] at hcf
        rw [Option.some.inj hcf]
        exact hmatch
    · intro hmatch
      rw [List.mem_flatten]
      refine ⟨contribList kws ci K F, List.mem_map.mpr ⟨F, hF, rfl⟩, ?_⟩
      simp only [contribList, hc]
      rw [List.mem_replicate]
      refine ⟨?_, rfl⟩
      rw [if_pos hmatch]
      exact Nat.pos_iff_ne_zero.mp (countKw_pos_of_mem hK)
  · intro K hnone
    apply dictFind_eq_none_of_findD_nil hvne
    rw [hfind]
    rw [List.flatten_eq_nil_iff]
    intro l hl
    rw [List.mem_map] at hl
    obtain ⟨f, hfmem, rfl⟩ := hl
    cases hcf : f.content with
    | none => simp [contribList, hcf]
    | some cf =>
      have hm := hnone f hfmem cf hcf
      simp [contribList, hcf, hm]

/-- C1 witness: two readable files with distinct paths, one matching
keyword and one non-matching keyword, two workers. -/
theorem claim1_witness :
    0 < 2 ∧
    (∀ f ∈ ([⟨"a.txt", some ("alpha beta".data)⟩, ⟨"b.txt", some ("beta gamma".data)⟩] :
      List SrcFile), f.content ≠ none) ∧
    (([⟨"a.txt", some ("alpha beta".data)⟩, ⟨"b.txt", some ("beta gamma".data)⟩] :
      List SrcFile).map SrcFile.path).Nodup ∧
    (∃ d, searchPipeline
        [⟨"a.txt", some ("alpha beta".data)⟩, ⟨"b.txt", some ("beta gamma".data)⟩]
        [("alpha".data), ("delta".data)] 2 false = some d ∧
      (∀ K ∈ ([("alpha".data), ("delta".data)] : List KW),
        ∀ F ∈ ([⟨"a.txt", some ("alpha beta".data)⟩, ⟨"b.txt", some ("beta gamma".data)⟩] :
          List SrcFile), ∀ c, F.content = some c →
        ((∃ vs, dictFind d K = some vs ∧ F.path ∈ vs) ↔ matchKw false K c = true)) ∧
      (∀ K, (∀ F ∈ ([⟨"a.txt", some ("alpha beta".data)⟩,
            ⟨"b.txt", some ("beta gamma".data)⟩] : List SrcFile),
          ∀ c, F.content = some c → matchKw false K c = false) →
        dictFind d K = none)) :=
  ⟨by decide, by decide, by decide,
    claim1_search_complete
      [⟨"a.txt", some ("alpha beta".data)⟩, ⟨"b.txt", some ("beta gamma".data)⟩]
      [("alpha".data), ("delta".data)] false 2 (by decide) (by decide) (by decide)⟩

/-- C2 counterexample: with the duplicate keyword sequence
`["x", "x"]` and one matching file `"a"`, the final mapping lists the
path `"a"` twice under the keyword `"x"` — duplicate keyword strings
collide on the same dict key, so the path is appended once per
duplicate and the claimed at-most-once property fails. -/
theorem claim2_counterexample :
    searchPipeline [⟨"a", some ['x']⟩] [['x'], ['x']] 1 false =
      some [(['x'], ["a", "a"])] ∧
    countPath ["a", "a"] "a" = 2 := by
  exact ⟨by decide, by decide⟩

/-- C2 (amended): when the keyword sequence has pairwise-distinct
entries and the file list has pairwise-distinct paths, each file path
appears at most once in `result[K]` for any keyword `K`, for every
positive chunk partition count. -/
theorem claim2_no_dup_amended (files : List SrcFile) (kws : List KW) (ci : Bool)
    (n : Nat) (hn : 0 < n) (hkws : kws.Nodup)
    (hpaths : (files.map SrcFile.path).Nodup) :
    ∃ d, searchPipeline files kws n ci = some d ∧
      ∀ K vs, dictFind d K = some vs → ∀ p, countPath vs p ≤ 1 := by
  obtain ⟨d, hp, hfind, _⟩ := searchPipeline_findD files kws n ci hn
  refine ⟨d, hp, ?_⟩
  intro K vs hvs p
  have hvs' : vs = findD d K := (findD_eq_of_dictFind hvs).symm
  subst hvs'
  rw [hfind, countPath_flatten, List.map_map]
  have hcomp : ((fun l => countPath l p) ∘ contribList kws ci K) =
      fun f => countPath (contribList kws ci K f) p := rfl
  rw [hcomp]
  exact le_trans (sum_contrib_le kws ci K p files hpaths)
    (countKw_le_one_of_nodup hkws K)

/-- C2 witness: one file, one keyword, one worker. -/
theorem claim2_witness :
    0 < 1 ∧ ([['x']] : List KW).Nodup ∧
    (([⟨"a", some ['x']⟩] : List SrcFile).map SrcFile.path).Nodup ∧
    (∃ d, searchPipeline [⟨"a", some ['x']⟩] [['x']] 1 false = some d ∧
      ∀ K vs, dictFind d K = some vs → ∀ p, countPath vs p ≤ 1) :=
  ⟨by decide, by decide, by decide,
    claim2_no_dup_amended [⟨"a", some ['x']⟩] [['x']] false 1
      (by decide) (by decide) (by decide)⟩

end KwSearch
